import Mathlib

/-!
Verification development for a curve-generic signature verification core:
a strict fixed-width hexadecimal codec for a two-component signature value
(`src/ed448/src/hex.rs`) and an ECDSA verifying key (`src/ecdsa/src/verify.rs`).

Strings are modelled as lists of byte values (`List Nat`, each element `< 256`),
matching the Rust code's use of `hex.as_bytes()`.  Machine bytes are `Nat`s
with explicit range facts where they matter.
-/

deriving instance DecidableEq for Except

namespace Signatures

/-- The single flat error kind of the core: `Error::new()` carries no payload,
so it is a one-constructor inductive. -/
inductive Error where
  | new
  deriving DecidableEq

/-- Modelled from the spec: the two-component `Signature` value (e.g. R and s),
"a pair of fixed-size byte arrays, each independently serialized".  The struct
definition itself is not under `src/` (only `src/ed448/src/hex.rs` refers to
`self.R.0` and `self.s.0`), so it is taken from the spec's data model. -/
structure Signature where
  R : List Nat
  s : List Nat
  deriving DecidableEq

/-- Modelled from the spec: `Signature::BYTE_SIZE`, the total fixed byte
length of the signature, "total byte length = 2 × component size".  The
concrete constant is not under `src/`, so the component size `n` is kept as a
parameter. -/
def BYTE_SIZE (n : Nat) : Nat := 2 * n

/-- Validity of a signature value for component size `n`: both components have
exactly `n` bytes and every entry is a byte value. -/
def Signature.Valid (n : Nat) (sig : Signature) : Prop :=
  sig.R.length = n ∧ sig.s.length = n ∧
    (∀ b ∈ sig.R, b < 256) ∧ (∀ b ∈ sig.s, b < 256)

instance (n : Nat) (sig : Signature) : Decidable (sig.Valid n) := by
  unfold Signature.Valid; infer_instance

/-- Lowercase hex digit for a value `v < 16`: `'0'..'9'` are bytes 48-57,
`'a'..'f'` are bytes 97-102 (`write!("{:02x}", byte)`). -/
def hexCharLower (v : Nat) : Nat := if v < 10 then 48 + v else 87 + v

/-- Uppercase hex digit for a value `v < 16`: `'A'..'F'` are bytes 65-70
(`write!("{:02X}", byte)`). -/
def hexCharUpper (v : Nat) : Nat := if v < 10 then 48 + v else 55 + v

/-- One byte as exactly two lowercase hex digits, high nibble first. -/
def encodeByteLower (b : Nat) : List Nat := [hexCharLower (b / 16), hexCharLower (b % 16)]

/-- One byte as exactly two uppercase hex digits, high nibble first. -/
def encodeByteUpper (b : Nat) : List Nat := [hexCharUpper (b / 16), hexCharUpper (b % 16)]

/-- `fmt::LowerHex for Signature`: every byte of `R` then every byte of `s`,
each as two lowercase hex digits, no separators. -/
def lowerHex (sig : Signature) : List Nat :=
  ((sig.R ++ sig.s).map encodeByteLower).flatten

/-- `fmt::UpperHex for Signature`: the same byte order in uppercase. -/
def upperHex (sig : Signature) : List Nat :=
  ((sig.R ++ sig.s).map encodeByteUpper).flatten

/-- The case-and-validity scan of `FromStr::from_str`: one pass over the input
bytes, threading `upper_case : Option Bool` exactly as the Rust `match`:
digits `b'0'..=b'9'` are neutral, `b'a'..=b'z'` fixes or checks lowercase,
`b'A'..=b'Z'` fixes or checks uppercase, anything else fails. -/
def caseScan : List Nat → Option Bool → Except Error Unit
  | [], _ => .ok ()
  | b :: rest, uc =>
    if 48 ≤ b ∧ b ≤ 57 then caseScan rest uc
    else if 97 ≤ b ∧ b ≤ 122 then
      match uc with
      | some true => .error Error.new
      | some false => caseScan rest uc
      | none => caseScan rest (some false)
    else if 65 ≤ b ∧ b ≤ 90 then
      match uc with
      | some true => caseScan rest uc
      | some false => .error Error.new
      | none => caseScan rest (some true)
    else .error Error.new

/-- `hex.as_bytes().chunks_exact(2)`: consecutive pairs, dropping a trailing
odd byte (never present after the length check, which forces even length). -/
def chunksExact2 : List Nat → List (List Nat)
  | a :: b :: rest => [a, b] :: chunksExact2 rest
  | _ => []

/-- `char::to_digit(16)` on a byte: `0-9`, `a-f`, `A-F` map to their values,
everything else (including `g-z`, `G-Z` and non-ASCII bytes) is rejected. -/
def hexVal (c : Nat) : Option Nat :=
  if 48 ≤ c ∧ c ≤ 57 then some (c - 48)
  else if 97 ≤ c ∧ c ≤ 102 then some (c - 87)
  else if 65 ≤ c ∧ c ≤ 70 then some (c - 55)
  else none

/-- Digit loop of `u8::from_str_radix(s, 16)`: accumulate base-16 digits with
the `u8` overflow check. -/
def digitsVal16 : List Nat → Nat → Option Nat
  | [], acc => some acc
  | c :: rest, acc =>
    match hexVal c with
    | none => none
    | some d =>
      if acc * 16 + d < 256 then digitsVal16 rest (acc * 16 + d) else none

/-- `str::from_utf8(digit).ok().and_then(|s| u8::from_str_radix(s, 16).ok())`
on one chunk.  `from_str_radix` strips an optional leading `+` (byte 43) or
`-` (byte 45, which for `u8` only admits a zero value), requires at least one
digit, and rejects any invalid digit; a chunk whose bytes are not valid UTF-8
is already rejected by `from_utf8`, which coincides with `hexVal` returning
`none` on every byte `≥ 128`.  Both failure paths collapse to `none`. -/
def from_str_radix16 (chunk : List Nat) : Option Nat :=
  match chunk with
  | [] => none
  | c :: rest =>
    if c = 43 then
      if rest = [] then none else digitsVal16 rest 0
    else if c = 45 then
      if rest = [] then none
      else match digitsVal16 rest 0 with
        | some 0 => some 0
        | _ => none
    else digitsVal16 chunk 0

/-- The byte-pair parse loop: `chunks_exact(2).zip(result.iter_mut())` with
`?` on the first failing chunk.  `buf` is the `[0u8; BYTE_SIZE]` result
buffer; the zip stops at the shorter of the two iterators, so leftover buffer
entries keep their zeros and leftover chunks are never parsed. -/
def parseInto : List (List Nat) → List Nat → Except Error (List Nat)
  | [], buf => .ok buf
  | _ :: _, [] => .ok []
  | c :: cs, _ :: bs =>
    match from_str_radix16 c with
    | none => .error Error.new
    | some v => Except.map (fun r => v :: r) (parseInto cs bs)

/-- Modelled from the spec: `Signature::try_from(&[u8])`, not under `src/`.
The spec's data model makes the signature "a pair of fixed-size byte arrays
... total byte length = 2 × component size" and its acceptance property has
every parsed all-digit buffer succeed, so construction splits a buffer of the
exact total length into the two components and fails otherwise. -/
def try_from (n : Nat) (bytes : List Nat) : Except Error Signature :=
  if bytes.length = BYTE_SIZE n then .ok ⟨bytes.take n, bytes.drop n⟩
  else .error Error.new

/-- `str::FromStr for Signature`: reject on wrong length, run the case scan,
parse byte pairs into the fixed buffer, then build the signature value. -/
def from_str (n : Nat) (hex : List Nat) : Except Error Signature :=
  if hex.length ≠ BYTE_SIZE n * 2 then .error Error.new
  else
    match caseScan hex none with
    | .error e => .error e
    | .ok _ =>
      match parseInto (chunksExact2 hex) (List.replicate (BYTE_SIZE n) 0) with
      | .error e => .error e
      | .ok bytes => try_from n bytes

/-!
ECDSA verifying key (`src/ecdsa/src/verify.rs`).  The curve, its point and
scalar arithmetic, the digest algorithm and the verification primitive are
external collaborators consumed through trait bounds; they are abstracted as
a record of capabilities over opaque types.  External fallible operations
(`PublicKey::from_sec1_bytes`, `FromEncodedPoint::from_encoded_point`) are
modelled as `Option`-valued, `none` standing for any external failure.
-/

/-- Capabilities the generic code consumes: `PubKey` is
`elliptic_curve::PublicKey<C>`, `EncPt` is `EncodedPoint<C>`, `Dig` the
digest state `C::Digest`, `Sc` the scalar type, `Affine` the affine point,
`EcdsaSig` the `Signature<C>` type. -/
structure CurveOps (PubKey EncPt Dig Sc Affine EcdsaSig : Type) where
  publicKeyFromSec1 : List Nat → Option PubKey
  publicKeyFromEncodedPoint : EncPt → Option PubKey
  publicKeyToEncodedPoint : PubKey → Bool → EncPt
  compressPoints : Bool
  asAffine : PubKey → Affine
  digestNew : Dig
  digestChain : Dig → List Nat → Dig
  fromDigest : Dig → Sc
  verifyPrehashed : Affine → Sc → EcdsaSig → Except Error Unit

/-- `VerifyingKey<C>`: a newtype over the generic public key. -/
structure VerifyingKey (PubKey : Type) where
  inner : PubKey
  deriving DecidableEq

section Ecdsa

variable {PubKey EncPt Dig Sc Affine EcdsaSig : Type}

/-- `VerifyingKey::from_sec1_bytes`:
`PublicKey::from_sec1_bytes(bytes).map(|pk| Self { inner: pk }).map_err(|_| Error::new())`. -/
def VerifyingKey.from_sec1_bytes (ops : CurveOps PubKey EncPt Dig Sc Affine EcdsaSig)
    (bytes : List Nat) : Except Error (VerifyingKey PubKey) :=
  match ops.publicKeyFromSec1 bytes with
  | some pk => .ok ⟨pk⟩
  | none => .error Error.new

/-- `VerifyingKey::from_encoded_point`:
`PublicKey::from_encoded_point(public_key).map(|pk| Self { inner: pk }).ok_or_else(Error::new)`. -/
def VerifyingKey.from_encoded_point (ops : CurveOps PubKey EncPt Dig Sc Affine EcdsaSig)
    (pt : EncPt) : Except Error (VerifyingKey PubKey) :=
  match ops.publicKeyFromEncodedPoint pt with
  | some pk => .ok ⟨pk⟩
  | none => .error Error.new

/-- `VerifyingKey::to_encoded_point(compress)`: delegates to the inner
public key's serializer. -/
def VerifyingKey.to_encoded_point (ops : CurveOps PubKey EncPt Dig Sc Affine EcdsaSig)
    (vk : VerifyingKey PubKey) (compress : Bool) : EncPt :=
  ops.publicKeyToEncodedPoint vk.inner compress

/-- `DigestVerifier::verify_digest`: converts the digest to a scalar and
delegates to the curve's verification primitive on the key's affine point. -/
def VerifyingKey.verify_digest (ops : CurveOps PubKey EncPt Dig Sc Affine EcdsaSig)
    (vk : VerifyingKey PubKey) (digest : Dig) (signature : EcdsaSig) : Except Error Unit :=
  ops.verifyPrehashed (ops.asAffine vk.inner) (ops.fromDigest digest) signature

/-- The one-shot digest of a full message: `C::Digest::new().chain(msg)`,
a fresh hasher updated once with the whole message. -/
def oneShotDigest (ops : CurveOps PubKey EncPt Dig Sc Affine EcdsaSig)
    (msg : List Nat) : Dig :=
  ops.digestChain ops.digestNew msg

/-- `signature::Verifier::verify`:
`self.verify_digest(C::Digest::new().chain(msg), signature)`. -/
def VerifyingKey.verify (ops : CurveOps PubKey EncPt Dig Sc Affine EcdsaSig)
    (vk : VerifyingKey PubKey) (msg : List Nat) (signature : EcdsaSig) : Except Error Unit :=
  VerifyingKey.verify_digest ops vk (ops.digestChain ops.digestNew msg) signature

/-- `From<&VerifyingKey<C>> for EncodedPoint<C>`:
`verify_key.to_encoded_point(C::COMPRESS_POINTS)`. -/
def encodedPointFromVerifyingKey (ops : CurveOps PubKey EncPt Dig Sc Affine EcdsaSig)
    (vk : VerifyingKey PubKey) : EncPt :=
  VerifyingKey.to_encoded_point ops vk ops.compressPoints

/-- `From<PublicKey<C>> for VerifyingKey<C>`: `VerifyingKey { inner: public_key }`. -/
def verifyingKeyFromPublicKey (pk : PubKey) : VerifyingKey PubKey :=
  ⟨pk⟩

/-- `From<VerifyingKey<C>> for PublicKey<C>`: `verify_key.inner`. -/
def publicKeyFromVerifyingKey (vk : VerifyingKey PubKey) : PubKey :=
  vk.inner

end Ecdsa

/-- A concrete instantiation of the capability record over `Bool`, used to
evaluate the generic definitions on explicit inputs. -/
def toyOps : CurveOps Bool Bool Bool Bool Bool Bool :=
  { publicKeyFromSec1 := fun l => if l = [4] then some true else none
    publicKeyFromEncodedPoint := fun pt => if pt then some true else none
    publicKeyToEncodedPoint := fun pk c => pk && c
    compressPoints := true
    asAffine := fun pk => pk
    digestNew := false
    digestChain := fun d msg => d || decide (msg ≠ [])
    fromDigest := fun d => d
    verifyPrehashed := fun a s _ => if a && s then .ok () else .error Error.new }

lemma caseScan_ok_lower (l : List Nat)
    (h : ∀ c ∈ l, (48 ≤ c ∧ c ≤ 57) ∨ (97 ≤ c ∧ c ≤ 122)) :
    caseScan l none = .ok () ∧ caseScan l (some false) = .ok () := by
  induction l with
  | nil => exact ⟨rfl, rfl⟩
  | cons b rest ih =>
    have hb := h b (List.mem_cons_self ..)
    have ih' := ih fun c hc => h c (List.mem_cons_of_mem _ hc)
    rcases hb with hd | hl
    · refine ⟨?_, ?_⟩
      · simp only [caseScan]; rw [if_pos hd]; exact ih'.1
      · simp only [caseScan]; rw [if_pos hd]; exact ih'.2
    · have hnd : ¬ (48 ≤ b ∧ b ≤ 57) := by omega
      refine ⟨?_, ?_⟩
      · simp only [caseScan]; rw [if_neg hnd, if_pos hl]; exact ih'.2
      · simp only [caseScan]; rw [if_neg hnd, if_pos hl]; exact ih'.2

lemma caseScan_ok_upper (l : List Nat)
    (h : ∀ c ∈ l, (48 ≤ c ∧ c ≤ 57) ∨ (65 ≤ c ∧ c ≤ 90)) :
    caseScan l none = .ok () ∧ caseScan l (some true) = .ok () := by
  induction l with
  | nil => exact ⟨rfl, rfl⟩
  | cons b rest ih =>
    have hb := h b (List.mem_cons_self ..)
    have ih' := ih fun c hc => h c (List.mem_cons_of_mem _ hc)
    rcases hb with hd | hu
    · refine ⟨?_, ?_⟩
      · simp only [caseScan]; rw [if_pos hd]; exact ih'.1
      · simp only [caseScan]; rw [if_pos hd]; exact ih'.2
    · have hnd : ¬ (48 ≤ b ∧ b ≤ 57) := by omega
      have hnl : ¬ (97 ≤ b ∧ b ≤ 122) := by omega
      refine ⟨?_, ?_⟩
      · simp only [caseScan]; rw [if_neg hnd, if_neg hnl, if_pos hu]; exact ih'.2
      · simp only [caseScan]; rw [if_neg hnd, if_neg hnl, if_pos hu]; exact ih'.2

lemma caseScan_error_lower_after_upper (l : List Nat)
    (h : ∃ c ∈ l, 97 ≤ c ∧ c ≤ 122) :
    caseScan l (some true) = .error Error.new := by
  induction l with
  | nil => simp at h
  | cons b rest ih =>
    obtain ⟨c, hc, hc2⟩ := h
    simp only [caseScan]
    by_cases hd : 48 ≤ b ∧ b ≤ 57
    · rw [if_pos hd]
      refine ih ⟨c, ?_, hc2⟩
      rcases List.mem_cons.mp hc with rfl | h2
      · omega
      · exact h2
    · by_cases hl : 97 ≤ b ∧ b ≤ 122
      · rw [if_neg hd, if_pos hl]
      · by_cases hu : 65 ≤ b ∧ b ≤ 90
        · rw [if_neg hd, if_neg hl, if_pos hu]
          refine ih ⟨c, ?_, hc2⟩
          rcases List.mem_cons.mp hc with rfl | h2
          · omega
          · exact h2
        · rw [if_neg hd, if_neg hl, if_neg hu]

lemma caseScan_error_upper_after_lower (l : List Nat)
    (h : ∃ c ∈ l, 65 ≤ c ∧ c ≤ 90) :
    caseScan l (some false) = .error Error.new := by
  induction l with
  | nil => simp at h
  | cons b rest ih =>
    obtain ⟨c, hc, hc2⟩ := h
    simp only [caseScan]
    by_cases hd : 48 ≤ b ∧ b ≤ 57
    · rw [if_pos hd]
      refine ih ⟨c, ?_, hc2⟩
      rcases List.mem_cons.mp hc with rfl | h2
      · omega
      · exact h2
    · by_cases hl : 97 ≤ b ∧ b ≤ 122
      · rw [if_neg hd, if_pos hl]
        refine ih ⟨c, ?_, hc2⟩
        rcases List.mem_cons.mp hc with rfl | h2
        · omega
        · exact h2
      · by_cases hu : 65 ≤ b ∧ b ≤ 90
        · rw [if_neg hd, if_neg hl, if_pos hu]
        · rw [if_neg hd, if_neg hl, if_neg hu]

lemma caseScan_error_of_mixed (l : List Nat)
    (hlo : ∃ c ∈ l, 97 ≤ c ∧ c ≤ 122) (hup : ∃ c ∈ l, 65 ≤ c ∧ c ≤ 90)
    (uc : Option Bool) :
    caseScan l uc = .error Error.new := by
  induction l generalizing uc with
  | nil => simp at hlo
  | cons b rest ih =>
    obtain ⟨c, hc, hc2⟩ := hlo
    obtain ⟨d, hd, hd2⟩ := hup
    simp only [caseScan]
    by_cases hdig : 48 ≤ b ∧ b ≤ 57
    · rw [if_pos hdig]
      refine ih ⟨c, ?_, hc2⟩ ⟨d, ?_, hd2⟩ uc
      · rcases List.mem_cons.mp hc with rfl | h2
        · omega
        · exact h2
      · rcases List.mem_cons.mp hd with rfl | h2
        · omega
        · exact h2
    · by_cases hlow : 97 ≤ b ∧ b ≤ 122
      · rw [if_neg hdig, if_pos hlow]
        have hd' : d ∈ rest := by
          rcases List.mem_cons.mp hd with rfl | h2
          · omega
          · exact h2
        rcases uc with _ | u
        · exact caseScan_error_upper_after_lower rest ⟨d, hd', hd2⟩
        · rcases u with _ | _
          · exact caseScan_error_upper_after_lower rest ⟨d, hd', hd2⟩
          · rfl
      · by_cases hupp : 65 ≤ b ∧ b ≤ 90
        · rw [if_neg hdig, if_neg hlow, if_pos hupp]
          have hc' : c ∈ rest := by
            rcases List.mem_cons.mp hc with rfl | h2
            · omega
            · exact h2
          rcases uc with _ | u
          · exact caseScan_error_lower_after_upper rest ⟨c, hc', hc2⟩
          · rcases u with _ | _
            · rfl
            · exact caseScan_error_lower_after_upper rest ⟨c, hc', hc2⟩
        · rw [if_neg hdig, if_neg hlow, if_neg hupp]

/-- C3: any input of the correct length that contains at least one uppercase
letter `A-Z` and at least one lowercase letter `a-z` is rejected by
`Signature::from_str`, whatever the positions of the two letters. -/
theorem from_str_rejects_mixed_case (n : Nat) (hex : List Nat)
    (hlen : hex.length = BYTE_SIZE n * 2)
    (hlo : ∃ c ∈ hex, 97 ≤ c ∧ c ≤ 122)
    (hup : ∃ c ∈ hex, 65 ≤ c ∧ c ≤ 90) :
    from_str n hex = .error Error.new := by
  unfold from_str
  rw [if_neg (by omega), caseScan_error_of_mixed hex hlo hup none]

/-- Witness for C3 at `n = 1` on the bytes of `"aB00"`. -/
theorem from_str_rejects_mixed_case_witness :
    from_str 1 [97, 66, 48, 48] = .error Error.new :=
  from_str_rejects_mixed_case 1 [97, 66, 48, 48] (by decide)
    (by decide) (by decide)

/-- C4: any input whose length differs from `2 × BYTE_SIZE` is rejected by
`Signature::from_str`. -/
theorem from_str_rejects_wrong_length (n : Nat) (hex : List Nat)
    (h : hex.length ≠ BYTE_SIZE n * 2) :
    from_str n hex = .error Error.new := by
  unfold from_str
  rw [if_pos h]

/-- Witness for C4 at `n = 2` on a three-byte input. -/
theorem from_str_rejects_wrong_length_witness :
    from_str 2 [48, 48, 48] = .error Error.new :=
  from_str_rejects_wrong_length 2 [48, 48, 48] (by decide)

theorem chunksExact2_mem_flat : ∀ (l : List Nat), ∀ c ∈ chunksExact2 l, ∀ x ∈ c, x ∈ l
  | [] => by simp [chunksExact2]
  | [a] => by simp [chunksExact2]
  | a :: b :: rest => by
    intro c hc x hx
    simp only [chunksExact2, List.mem_cons] at hc
    rcases hc with rfl | hc
    · simp only [List.mem_cons, List.not_mem_nil, or_false] at hx
      simp only [List.mem_cons]
      tauto
    · simp only [List.mem_cons]
      exact Or.inr (Or.inr (chunksExact2_mem_flat rest c hc x hx))

theorem chunksExact2_shape : ∀ (l : List Nat), ∀ c ∈ chunksExact2 l, ∃ x y, c = [x, y]
  | [] => by simp [chunksExact2]
  | [a] => by simp [chunksExact2]
  | a :: b :: rest => by
    intro c hc
    simp only [chunksExact2, List.mem_cons] at hc
    rcases hc with rfl | hc
    · exact ⟨a, b, rfl⟩
    · exact chunksExact2_shape rest c hc

theorem chunksExact2_length : ∀ (l : List Nat), (chunksExact2 l).length = l.length / 2
  | [] => by simp [chunksExact2]
  | [a] => by simp [chunksExact2]
  | a :: b :: rest => by
    simp only [chunksExact2, List.length_cons, chunksExact2_length rest]
    omega

theorem mem_chunksExact2_of_mem : ∀ (l : List Nat), l.length % 2 = 0 →
    ∀ x ∈ l, ∃ c ∈ chunksExact2 l, x ∈ c
  | [], _, x, hx => by simp at hx
  | [a], h, x, hx => by simp at h
  | a :: b :: rest, h, x, hx => by
    have h2 : rest.length % 2 = 0 := by
      simp only [List.length_cons] at h
      omega
    rcases List.mem_cons.mp hx with rfl | hx2
    · exact ⟨[x, b], by simp [chunksExact2], by simp⟩
    · rcases List.mem_cons.mp hx2 with rfl | hx3
      · exact ⟨[a, x], by simp [chunksExact2], by simp⟩
      · obtain ⟨c, hc, hxc⟩ := mem_chunksExact2_of_mem rest h2 x hx3
        refine ⟨c, ?_, hxc⟩
        show c ∈ [a, b] :: chunksExact2 rest
        exact List.mem_cons_of_mem _ hc

theorem chunksExact2_flatten_pairs : ∀ (ll : List (List Nat)),
    (∀ c ∈ ll, ∃ x y, c = [x, y]) → chunksExact2 ll.flatten = ll
  | [], _ => rfl
  | c :: cs, h => by
    obtain ⟨x, y, rfl⟩ := h c (List.mem_cons_self ..)
    show chunksExact2 ([x, y] ++ cs.flatten) = [x, y] :: cs
    simp only [List.cons_append, List.nil_append]
    show [x, y] :: chunksExact2 cs.flatten = [x, y] :: cs
    rw [chunksExact2_flatten_pairs cs fun d hd => h d (List.mem_cons_of_mem _ hd)]

theorem length_flatten_pairs (f : Nat → List Nat) (hf : ∀ b, (f b).length = 2) :
    ∀ (l : List Nat), ((l.map f).flatten).length = 2 * l.length
  | [] => rfl
  | b :: bs => by
    simp only [List.map_cons, List.flatten_cons, List.length_append, List.length_cons,
      length_flatten_pairs f hf bs, hf b]
    omega

lemma hexVal_digit (c : Nat) (h : 48 ≤ c ∧ c ≤ 57) : hexVal c = some (c - 48) := by
  unfold hexVal
  rw [if_pos h]

lemma hexVal_invalid_letter (c : Nat) (h : (103 ≤ c ∧ c ≤ 122) ∨ (71 ≤ c ∧ c ≤ 90)) :
    hexVal c = none := by
  unfold hexVal
  rw [if_neg (by omega), if_neg (by omega), if_neg (by omega)]

lemma hexVal_hexCharLower (v : Nat) (h : v < 16) : hexVal (hexCharLower v) = some v := by
  unfold hexCharLower hexVal
  by_cases h10 : v < 10
  · rw [if_pos h10, if_pos (by omega)]
    congr 1
    omega
  · rw [if_neg h10, if_neg (by omega), if_pos (by omega)]
    congr 1
    omega

lemma hexVal_hexCharUpper (v : Nat) (h : v < 16) : hexVal (hexCharUpper v) = some v := by
  unfold hexCharUpper hexVal
  by_cases h10 : v < 10
  · rw [if_pos h10, if_pos (by omega)]
    congr 1
    omega
  · rw [if_neg h10, if_neg (by omega), if_neg (by omega), if_pos (by omega)]
    congr 1
    omega

lemma from_str_radix16_digits (a b : Nat) (ha : 48 ≤ a ∧ a ≤ 57) (hb : 48 ≤ b ∧ b ≤ 57) :
    from_str_radix16 [a, b] = some ((a - 48) * 16 + (b - 48)) := by
  simp only [from_str_radix16]
  rw [if_neg (by omega : ¬ a = 43), if_neg (by omega : ¬ a = 45)]
  simp only [digitsVal16, hexVal_digit a ha, hexVal_digit b hb, Nat.zero_mul, Nat.zero_add]
  rw [if_pos (by omega), if_pos (by omega)]

lemma from_str_radix16_encodeLower (v : Nat) (hv : v < 256) :
    from_str_radix16 (encodeByteLower v) = some v := by
  have hhi : v / 16 < 16 := by omega
  have hlo : v % 16 < 16 := by omega
  have h43 : ¬ hexCharLower (v / 16) = 43 := by
    unfold hexCharLower
    split <;> omega
  have h45 : ¬ hexCharLower (v / 16) = 45 := by
    unfold hexCharLower
    split <;> omega
  unfold encodeByteLower
  simp only [from_str_radix16]
  rw [if_neg h43, if_neg h45]
  simp only [digitsVal16, hexVal_hexCharLower _ hhi, hexVal_hexCharLower _ hlo,
    Nat.zero_mul, Nat.zero_add]
  rw [if_pos (by omega), if_pos (by omega)]
  congr 1
  omega

lemma from_str_radix16_encodeUpper (v : Nat) (hv : v < 256) :
    from_str_radix16 (encodeByteUpper v) = some v := by
  have hhi : v / 16 < 16 := by omega
  have hlo : v % 16 < 16 := by omega
  have h43 : ¬ hexCharUpper (v / 16) = 43 := by
    unfold hexCharUpper
    split <;> omega
  have h45 : ¬ hexCharUpper (v / 16) = 45 := by
    unfold hexCharUpper
    split <;> omega
  unfold encodeByteUpper
  simp only [from_str_radix16]
  rw [if_neg h43, if_neg h45]
  simp only [digitsVal16, hexVal_hexCharUpper _ hhi, hexVal_hexCharUpper _ hlo,
    Nat.zero_mul, Nat.zero_add]
  rw [if_pos (by omega), if_pos (by omega)]
  congr 1
  omega

lemma encodeByteLower_chars (v : Nat) (hv : v < 256) :
    ∀ c ∈ encodeByteLower v, (48 ≤ c ∧ c ≤ 57) ∨ (97 ≤ c ∧ c ≤ 122) := by
  intro c hc
  simp only [encodeByteLower, List.mem_cons, List.not_mem_nil, or_false] at hc
  have h1 : v / 16 < 16 := by omega
  have h2 : v % 16 < 16 := by omega
  rcases hc with rfl | rfl
  · unfold hexCharLower
    split <;> omega
  · unfold hexCharLower
    split <;> omega

lemma encodeByteUpper_chars (v : Nat) (hv : v < 256) :
    ∀ c ∈ encodeByteUpper v, (48 ≤ c ∧ c ≤ 57) ∨ (65 ≤ c ∧ c ≤ 90) := by
  intro c hc
  simp only [encodeByteUpper, List.mem_cons, List.not_mem_nil, or_false] at hc
  have h1 : v / 16 < 16 := by omega
  have h2 : v % 16 < 16 := by omega
  rcases hc with rfl | rfl
  · unfold hexCharUpper
    split <;> omega
  · unfold hexCharUpper
    split <;> omega

theorem parseInto_ok_all : ∀ (chunks : List (List Nat)) (buf : List Nat),
    (∀ c ∈ chunks, (from_str_radix16 c).isSome) →
    ∃ res, parseInto chunks buf = .ok res ∧ res.length = buf.length
  | [], buf, _ => ⟨buf, rfl, rfl⟩
  | c :: cs, [], _ => ⟨[], rfl, rfl⟩
  | c :: cs, b :: bs, h => by
    obtain ⟨v, hv⟩ := Option.isSome_iff_exists.mp (h c (List.mem_cons_self ..))
    obtain ⟨res, hres, hlen⟩ :=
      parseInto_ok_all cs bs fun d hd => h d (List.mem_cons_of_mem _ hd)
    refine ⟨v :: res, ?_, by simp [hlen]⟩
    simp only [parseInto, hv, hres, Except.map]

theorem parseInto_error_of_bad_chunk : ∀ (chunks : List (List Nat)) (buf : List Nat)
    (c : List Nat), chunks.length ≤ buf.length → c ∈ chunks → from_str_radix16 c = none →
    parseInto chunks buf = .error Error.new
  | [], _, c, _, hc, _ => by simp at hc
  | c0 :: cs, [], c, hlen, _, _ => by simp at hlen
  | c0 :: cs, b :: bs, c, hlen, hc, hbad => by
    simp only [parseInto]
    rcases List.mem_cons.mp hc with rfl | hc2
    · rw [hbad]
    · cases hv : from_str_radix16 c0 with
      | none => rfl
      | some v =>
        have hlen2 : cs.length ≤ bs.length := by
          simp only [List.length_cons] at hlen
          omega
        rw [parseInto_error_of_bad_chunk cs bs c hlen2 hc2 hbad]
        rfl

theorem parseInto_encode (f : Nat → List Nat)
    (hf : ∀ b, b < 256 → from_str_radix16 (f b) = some b) :
    ∀ (bs buf : List Nat), buf.length = bs.length → (∀ b ∈ bs, b < 256) →
    parseInto (bs.map f) buf = .ok bs
  | [], [], _, _ => rfl
  | [], b :: bs, h, _ => by simp at h
  | b :: bs, [], h, _ => by simp at h
  | b :: bs, x :: buf, h, hb => by
    simp only [List.map_cons, parseInto, hf b (hb b (List.mem_cons_self ..))]
    have h2 : buf.length = bs.length := by
      simp only [List.length_cons] at h
      omega
    rw [parseInto_encode f hf bs buf h2 fun d hd => hb d (List.mem_cons_of_mem _ hd)]
    rfl

lemma from_str_radix16_none_of_invalid (x y : Nat) (hx : 48 ≤ x)
    (hbad : ((103 ≤ x ∧ x ≤ 122) ∨ (71 ≤ x ∧ x ≤ 90)) ∨
      ((103 ≤ y ∧ y ≤ 122) ∨ (71 ≤ y ∧ y ≤ 90))) :
    from_str_radix16 [x, y] = none := by
  simp only [from_str_radix16]
  rw [if_neg (by omega : ¬ x = 43), if_neg (by omega : ¬ x = 45)]
  rcases hbad with hbx | hby
  · simp only [digitsVal16, hexVal_invalid_letter x hbx]
  · cases hvx : hexVal x with
    | none => simp only [digitsVal16, hvx]
    | some d =>
      simp only [digitsVal16, hvx, hexVal_invalid_letter y hby, Nat.zero_mul, Nat.zero_add]
      split <;> rfl

/-- C1: decoding the lowercase hex encoding (`LowerHex` output) of any valid
two-component signature value with `Signature::from_str` returns the value,
and likewise for the uppercase (`UpperHex`) encoding. -/
theorem hex_roundtrip (n : Nat) (sig : Signature) (h : sig.Valid n) :
    from_str n (lowerHex sig) = .ok sig ∧ from_str n (upperHex sig) = .ok sig := by
  obtain ⟨R, s⟩ := sig
  simp only [Signature.Valid] at h
  obtain ⟨hR, hs, hRb, hsb⟩ := h
  have hlb : ∀ b ∈ R ++ s, b < 256 := by
    intro b hb
    rcases List.mem_append.mp hb with h2 | h2
    · exact hRb b h2
    · exact hsb b h2
  have hlen2 : (R ++ s).length = BYTE_SIZE n := by
    simp only [List.length_append, BYTE_SIZE]
    omega
  have hbuf : (List.replicate (BYTE_SIZE n) (0 : Nat)).length = (R ++ s).length := by
    simp [hlen2]
  constructor
  · have hlenL : (lowerHex ⟨R, s⟩).length = BYTE_SIZE n * 2 := by
      show (((R ++ s).map encodeByteLower).flatten).length = _
      rw [length_flatten_pairs encodeByteLower (fun b => rfl) (R ++ s)]
      omega
    have hchars : ∀ c ∈ lowerHex ⟨R, s⟩, (48 ≤ c ∧ c ≤ 57) ∨ (97 ≤ c ∧ c ≤ 122) := by
      intro c hc
      simp only [lowerHex] at hc
      obtain ⟨m, hm, hcm⟩ := List.mem_flatten.mp hc
      obtain ⟨b, hb, rfl⟩ := List.mem_map.mp hm
      exact encodeByteLower_chars b (hlb b hb) c hcm
    have hchunks : chunksExact2 (lowerHex ⟨R, s⟩) = (R ++ s).map encodeByteLower := by
      show chunksExact2 (((R ++ s).map encodeByteLower).flatten) = _
      refine chunksExact2_flatten_pairs _ ?_
      intro c hc
      obtain ⟨b, hb, rfl⟩ := List.mem_map.mp hc
      exact ⟨_, _, rfl⟩
    unfold from_str
    rw [if_neg (by omega), (caseScan_ok_lower _ hchars).1, hchunks,
      parseInto_encode encodeByteLower from_str_radix16_encodeLower (R ++ s)
        (List.replicate (BYTE_SIZE n) 0) hbuf hlb]
    show try_from n (R ++ s) = .ok ⟨R, s⟩
    unfold try_from
    rw [if_pos hlen2]
    subst hR
    rw [List.take_left, List.drop_left]
  · have hlenU : (upperHex ⟨R, s⟩).length = BYTE_SIZE n * 2 := by
      show (((R ++ s).map encodeByteUpper).flatten).length = _
      rw [length_flatten_pairs encodeByteUpper (fun b => rfl) (R ++ s)]
      omega
    have hchars : ∀ c ∈ upperHex ⟨R, s⟩, (48 ≤ c ∧ c ≤ 57) ∨ (65 ≤ c ∧ c ≤ 90) := by
      intro c hc
      simp only [upperHex] at hc
      obtain ⟨m, hm, hcm⟩ := List.mem_flatten.mp hc
      obtain ⟨b, hb, rfl⟩ := List.mem_map.mp hm
      exact encodeByteUpper_chars b (hlb b hb) c hcm
    have hchunks : chunksExact2 (upperHex ⟨R, s⟩) = (R ++ s).map encodeByteUpper := by
      show chunksExact2 (((R ++ s).map encodeByteUpper).flatten) = _
      refine chunksExact2_flatten_pairs _ ?_
      intro c hc
      obtain ⟨b, hb, rfl⟩ := List.mem_map.mp hc
      exact ⟨_, _, rfl⟩
    unfold from_str
    rw [if_neg (by omega), (caseScan_ok_upper _ hchars).1, hchunks,
      parseInto_encode encodeByteUpper from_str_radix16_encodeUpper (R ++ s)
        (List.replicate (BYTE_SIZE n) 0) hbuf hlb]
    show try_from n (R ++ s) = .ok ⟨R, s⟩
    unfold try_from
    rw [if_pos hlen2]
    subst hR
    rw [List.take_left, List.drop_left]

/-- Witness for C1 at component size 1 on the signature `(R, s) = ([0xFF], [0x00])`. -/
theorem hex_roundtrip_witness :
    Signature.Valid 1 ⟨[255], [0]⟩ ∧
      (from_str 1 (lowerHex ⟨[255], [0]⟩) = .ok ⟨[255], [0]⟩ ∧
        from_str 1 (upperHex ⟨[255], [0]⟩) = .ok ⟨[255], [0]⟩) :=
  ⟨by decide, hex_roundtrip 1 ⟨[255], [0]⟩ (by decide)⟩

/-- C5: any input of the correct length made only of ASCII digits `0-9` is
accepted by `Signature::from_str`. -/
theorem from_str_all_digits_ok (n : Nat) (hex : List Nat)
    (hlen : hex.length = BYTE_SIZE n * 2)
    (hdig : ∀ c ∈ hex, 48 ≤ c ∧ c ≤ 57) :
    ∃ sig, from_str n hex = .ok sig := by
  have hall : ∀ c ∈ chunksExact2 hex, (from_str_radix16 c).isSome := by
    intro c hc
    obtain ⟨x, y, rfl⟩ := chunksExact2_shape hex c hc
    have hx := hdig x (chunksExact2_mem_flat hex _ hc x (by simp))
    have hy := hdig y (chunksExact2_mem_flat hex _ hc y (by simp))
    rw [from_str_radix16_digits x y hx hy]
    rfl
  obtain ⟨res, hres, hlenr⟩ :=
    parseInto_ok_all (chunksExact2 hex) (List.replicate (BYTE_SIZE n) 0) hall
  unfold from_str
  rw [if_neg (by omega), (caseScan_ok_lower hex fun c hc => Or.inl (hdig c hc)).1, hres]
  show ∃ sig, try_from n res = .ok sig
  unfold try_from
  rw [if_pos (by simp only [List.length_replicate] at hlenr; omega)]
  exact ⟨_, rfl⟩

/-- Witness for C5 at component size 1 on the bytes of `"0123"`. -/
theorem from_str_all_digits_ok_witness :
    ∃ sig, from_str 1 [48, 49, 50, 51] = .ok sig :=
  from_str_all_digits_ok 1 [48, 49, 50, 51] (by decide) (by decide)

/-- C7: `Signature::from_str` is a total function that yields either a value
or the ordinary error on every input, and when the up-front length check
passes, the byte-pair chunk count equals the length of the `BYTE_SIZE`
result buffer, so the parse loop never reads past either buffer. -/
theorem from_str_total_and_loop_bounded (n : Nat) (hex : List Nat) :
    (from_str n hex = .error Error.new ∨ ∃ sig, from_str n hex = .ok sig) ∧
      (hex.length = BYTE_SIZE n * 2 →
        (chunksExact2 hex).length = (List.replicate (BYTE_SIZE n) (0 : Nat)).length) := by
  constructor
  · cases h : from_str n hex with
    | error e => cases e; exact Or.inl rfl
    | ok sig => exact Or.inr ⟨sig, rfl⟩
  · intro hlen
    rw [chunksExact2_length, List.length_replicate]
    simp only [BYTE_SIZE] at hlen ⊢
    omega

/-- Witness for C7 at component size 1 on the bytes of `"0123"`. -/
theorem from_str_total_and_loop_bounded_witness :
    (from_str 1 [48, 49, 50, 51] = .error Error.new ∨
      ∃ sig, from_str 1 [48, 49, 50, 51] = .ok sig) ∧
      (chunksExact2 [48, 49, 50, 51]).length =
        (List.replicate (BYTE_SIZE 1) (0 : Nat)).length :=
  ⟨(from_str_total_and_loop_bounded 1 [48, 49, 50, 51]).1,
    (from_str_total_and_loop_bounded 1 [48, 49, 50, 51]).2 (by decide)⟩

/-- C9: a correct-length, uniformly-cased input containing a letter in `g-z`
or `G-Z` passes the case-scan pre-pass but is rejected by the base-16
byte-pair parse, so decoding fails. -/
theorem from_str_rejects_invalid_hex_letter (n : Nat) (hex : List Nat)
    (hlen : hex.length = BYTE_SIZE n * 2)
    (hcase : (∀ c ∈ hex, (48 ≤ c ∧ c ≤ 57) ∨ (97 ≤ c ∧ c ≤ 122)) ∨
      (∀ c ∈ hex, (48 ≤ c ∧ c ≤ 57) ∨ (65 ≤ c ∧ c ≤ 90)))
    (hbad : ∃ c ∈ hex, (103 ≤ c ∧ c ≤ 122) ∨ (71 ≤ c ∧ c ≤ 90)) :
    caseScan hex none = .ok () ∧ from_str n hex = .error Error.new := by
  have hscan : caseScan hex none = .ok () := by
    rcases hcase' : hcase with h | h
    · exact (caseScan_ok_lower hex h).1
    · exact (caseScan_ok_upper hex h).1
  refine ⟨hscan, ?_⟩
  obtain ⟨bad, hmem, hrange⟩ := hbad
  have heven : hex.length % 2 = 0 := by
    simp only [BYTE_SIZE] at hlen
    omega
  obtain ⟨c, hc, hbc⟩ := mem_chunksExact2_of_mem hex heven bad hmem
  obtain ⟨x, y, rfl⟩ := chunksExact2_shape hex c hc
  have hxmem : x ∈ hex := chunksExact2_mem_flat hex _ hc x (by simp)
  have hx48 : 48 ≤ x := by
    rcases hcase with h | h
    · rcases h x hxmem with h2 | h2 <;> omega
    · rcases h x hxmem with h2 | h2 <;> omega
  have hnone : from_str_radix16 [x, y] = none := by
    refine from_str_radix16_none_of_invalid x y hx48 ?_
    simp only [List.mem_cons, List.not_mem_nil, or_false] at hbc
    rcases hbc with rfl | rfl
    · exact Or.inl hrange
    · exact Or.inr hrange
  have hle : (chunksExact2 hex).length ≤ (List.replicate (BYTE_SIZE n) (0 : Nat)).length := by
    rw [chunksExact2_length, List.length_replicate]
    simp only [BYTE_SIZE] at hlen ⊢
    omega
  unfold from_str
  rw [if_neg (by omega), hscan,
    parseInto_error_of_bad_chunk (chunksExact2 hex) _ [x, y] hle hc hnone]

/-- Witness for C9 at component size 1 on the bytes of `"000g"`. -/
theorem from_str_rejects_invalid_hex_letter_witness :
    caseScan [48, 48, 48, 103] none = .ok () ∧
      from_str 1 [48, 48, 48, 103] = .error Error.new :=
  from_str_rejects_invalid_hex_letter 1 [48, 48, 48, 103] (by decide) (by decide) (by decide)

/-- C2: `Verifier::verify` on a message equals `verify_digest` applied to the
one-shot digest of the full message (a fresh hasher updated once with the
whole message) and the same signature. -/
theorem verify_eq_verify_digest_oneshot {PubKey EncPt Dig Sc Affine EcdsaSig : Type}
    (ops : CurveOps PubKey EncPt Dig Sc Affine EcdsaSig) (vk : VerifyingKey PubKey)
    (msg : List Nat) (signature : EcdsaSig) :
    VerifyingKey.verify ops vk msg signature =
      VerifyingKey.verify_digest ops vk (oneShotDigest ops msg) signature := rfl

/-- Witness for C2 on the concrete `toyOps` instantiation. -/
theorem verify_eq_verify_digest_oneshot_witness :
    VerifyingKey.verify toyOps ⟨true⟩ [1, 2] true =
      VerifyingKey.verify_digest toyOps ⟨true⟩ (oneShotDigest toyOps [1, 2]) true :=
  verify_eq_verify_digest_oneshot toyOps ⟨true⟩ [1, 2] true

/-- C6: `from_sec1_bytes` and `from_encoded_point` fail exactly when the
external point decode fails, and every failure of the core's fallible
operations is the single payload-free `Error::new()` value. -/
theorem construction_and_error_opacity {PubKey EncPt Dig Sc Affine EcdsaSig : Type}
    (ops : CurveOps PubKey EncPt Dig Sc Affine EcdsaSig) (bytes : List Nat) (pt : EncPt) :
    ((∃ vk, VerifyingKey.from_sec1_bytes ops bytes = .ok vk) ↔
      ∃ pk, ops.publicKeyFromSec1 bytes = some pk) ∧
    ((∃ vk, VerifyingKey.from_encoded_point ops pt = .ok vk) ↔
      ∃ pk, ops.publicKeyFromEncodedPoint pt = some pk) ∧
    (∀ e, VerifyingKey.from_sec1_bytes ops bytes = .error e → e = Error.new) ∧
    (∀ e, VerifyingKey.from_encoded_point ops pt = .error e → e = Error.new) ∧
    (∀ n hex e, from_str n hex = .error e → e = Error.new) ∧
    (∀ n bs e, try_from n bs = .error e → e = Error.new) := by
  refine ⟨?_, ?_, ?_, ?_, ?_, ?_⟩
  · unfold VerifyingKey.from_sec1_bytes
    cases ops.publicKeyFromSec1 bytes <;> simp
  · unfold VerifyingKey.from_encoded_point
    cases ops.publicKeyFromEncodedPoint pt <;> simp
  · intro e _
    cases e
    rfl
  · intro e _
    cases e
    rfl
  · intro n hex e _
    cases e
    rfl
  · intro n bs e _
    cases e
    rfl

/-- Witness for C6 on the concrete `toyOps` instantiation. -/
theorem construction_and_error_opacity_witness :
    ((∃ vk, VerifyingKey.from_sec1_bytes toyOps [4] = .ok vk) ↔
      ∃ pk, toyOps.publicKeyFromSec1 [4] = some pk) ∧
    ((∃ vk, VerifyingKey.from_encoded_point toyOps true = .ok vk) ↔
      ∃ pk, toyOps.publicKeyFromEncodedPoint true = some pk) ∧
    (∀ e, VerifyingKey.from_sec1_bytes toyOps [4] = .error e → e = Error.new) ∧
    (∀ e, VerifyingKey.from_encoded_point toyOps true = .error e → e = Error.new) ∧
    (∀ n hex e, from_str n hex = .error e → e = Error.new) ∧
    (∀ n bs e, try_from n bs = .error e → e = Error.new) :=
  construction_and_error_opacity toyOps [4] true

/-- C8: the conversions between `VerifyingKey` and the generic public key are
total and mutually inverse. -/
theorem verifyingKey_publicKey_inverse {PubKey : Type} (pk : PubKey)
    (vk : VerifyingKey PubKey) :
    publicKeyFromVerifyingKey (verifyingKeyFromPublicKey pk) = pk ∧
      verifyingKeyFromPublicKey (publicKeyFromVerifyingKey vk) = vk :=
  ⟨rfl, rfl⟩

/-- Witness for C8 at `PubKey = Bool`. -/
theorem verifyingKey_publicKey_inverse_witness :
    publicKeyFromVerifyingKey (verifyingKeyFromPublicKey true) = true ∧
      verifyingKeyFromPublicKey (publicKeyFromVerifyingKey ⟨false⟩) =
        (⟨false⟩ : VerifyingKey Bool) :=
  verifyingKey_publicKey_inverse true ⟨false⟩

/-- C10: the `From<&VerifyingKey>` conversion to an encoded point serializes
with the curve's compile-time default compression preference
`C::COMPRESS_POINTS`. -/
theorem encodedPoint_from_uses_compress_default {PubKey EncPt Dig Sc Affine EcdsaSig : Type}
    (ops : CurveOps PubKey EncPt Dig Sc Affine EcdsaSig) (vk : VerifyingKey PubKey) :
    encodedPointFromVerifyingKey ops vk =
      VerifyingKey.to_encoded_point ops vk ops.compressPoints := rfl

/-- Witness for C10 on the concrete `toyOps` instantiation. -/
theorem encodedPoint_from_uses_compress_default_witness :
    encodedPointFromVerifyingKey toyOps ⟨true⟩ =
      VerifyingKey.to_encoded_point toyOps ⟨true⟩ toyOps.compressPoints :=
  encodedPoint_from_uses_compress_default toyOps ⟨true⟩

end Signatures
